import Mathlib

/-!
Verification of `src/Storages/RabbitMQ/WriteBufferToRabbitMQProducer.cpp`.

The producer accumulates serialized row bytes into fixed-size chunks
(`nextImpl`), counts rows (`countRow`), and on every `max_rows`-th row
assembles a payload from the buffered chunks and publishes it with a
routing key that either rotates through queue ids or is fixed.  The
constructor, `checkExchange` and `finilizeProducer` contain bounded or
unbounded event-loop pump loops; these are modelled with oracles giving
the flag values after `n` loop pumps.

Bytes are modelled as `Nat`, chunks as `List Nat`.
-/

namespace RabbitMQProducer

/-- Constant from the source enum: sleep between connection-setup pumps. -/
def Connection_setup_sleep : Nat := 200

/-- Retry ceiling shared by the connection-setup poll and the commit wait. -/
def Loop_retries_max : Nat := 1000

/-- Sleep between pumps in the commit wait loop. -/
def Loop_wait : Nat := 10

/-- Message-counter wrap modulus: every `Batch` messages the event loop is
pumped via `checkExchange`. -/
def Batch : Nat := 10000

/-- Construction parameters of `WriteBufferToRabbitMQProducer` that the
batching / publish path reads (connection parameters are handled by the
loop models below). -/
structure PConfig where
  routing_key : String
  num_queues : Nat
  bind_by_id : Bool
  use_transactional_channel : Bool
  delim : Option Nat
  max_rows : Nat
  chunk_size : Nat
  deriving Repr, DecidableEq

/-- Mutable state of the producer's chunked write buffer and counters:
`chunks` is the chunk list, `pos` the WriteBuffer write offset into the
last chunk (`offset()` in the source), `rows` the row counter,
`next_queue` the rotating queue id, `message_counter` the wrapped count
of published messages. -/
structure PState where
  chunks : List (List Nat)
  pos : Nat
  rows : Nat
  next_queue : Nat
  message_counter : Nat
  deriving Repr, DecidableEq

/-- Modelled from the spec: the initial member values are declared in the
class header `WriteBufferToRabbitMQProducer.h`, which is not under `src/`.
The spec fixes them: `rows == 0` whenever no message is pending (§3
RowCounter), the first emitted message routes to queue id 1 and rotation
is `1, 2, …, num_queues` (§3 QueueRouter, §8), forcing `next_queue = 0`
before the first `next_queue % num_queues + 1`; `message_counter` starts
at 0 messages emitted; the constructor passes `WriteBuffer(nullptr, 0)`,
so there is no chunk and the write offset is 0. -/
def initState : PState :=
  { chunks := [], pos := 0, rows := 0, next_queue := 0, message_counter := 0 }

/-- Modelled from the spec: one byte written through the WriteBuffer
interface (`src/IO/WriteBuffer.h`, part of this repository but not under
`src/`).  Per §4.1, `write(bytes)` "appends raw bytes to the current
chunk; when the chunk's capacity is exhausted, a new chunk of
`chunk_size` is allocated and writing continues there".  The allocation
itself is `nextImpl` from the source: push a fresh string of
`chunk_size` bytes and point the working buffer at it (offset 0).  After
construction (`WriteBuffer(nullptr, 0)`) and after an emission
(`set(nullptr, 0)`) there is no working buffer, so the first subsequent
byte also allocates. -/
def writeByte (cfg : PConfig) (s : PState) (b : Nat) : PState :=
  if s.chunks = [] ∨ s.pos = cfg.chunk_size then
    { s with chunks := s.chunks ++ [(List.replicate cfg.chunk_size 0).set 0 b], pos := 1 }
  else
    { s with chunks := s.chunks.dropLast ++ [(s.chunks.getLastD []).set s.pos b],
             pos := s.pos + 1 }

/-- A sequence of bytes written through `writeByte`. -/
def writeString (cfg : PConfig) (s : PState) (row : List Nat) : PState :=
  row.foldl (writeByte cfg) s

/-- The `countRow` step: increment `rows`; if the new value is a multiple of
`max_rows`, take the last chunk's logical length as the write offset,
strip one trailing delimiter byte if configured and present
(`last_chunk[last_chunk_size - 1] == delim`), concatenate all chunks
but the last in full plus the truncated last chunk, reset the buffer
(`rows = 0`, `chunks.clear()`, `set(nullptr, 0)`), rotate
`next_queue = next_queue % num_queues + 1`, publish with routing key
`std::to_string(next_queue)` when `bind_by_id` else `routing_key`, and
wrap `message_counter` modulo `Batch`.  The published message
`(routing key, payload)` is returned; Lean's total `%` and `List.get?`
stand in for the C++ operations, whose preconditions are recorded
separately in `countRowChecked`. -/
def countRow (cfg : PConfig) (s : PState) : PState × Option (String × List Nat) :=
  if (s.rows + 1) % cfg.max_rows = 0 then
    let last_chunk := s.chunks.getLastD []
    let last_chunk_size :=
      match cfg.delim with
      | some d => if last_chunk.get? (s.pos - 1) = some d then s.pos - 1 else s.pos
      | none => s.pos
    let payload := s.chunks.dropLast.flatten ++ last_chunk.take last_chunk_size
    let nq := s.next_queue % cfg.num_queues + 1
    let key := if cfg.bind_by_id then toString nq else cfg.routing_key
    ({ s with rows := 0, chunks := [], pos := 0, next_queue := nq,
              message_counter := (s.message_counter + 1) % Batch },
     some (key, payload))
  else
    ({ s with rows := s.rows + 1 }, none)

/-- Variant of `countRow` with an explicit error branch at every operation whose C++
counterpart has a precondition: `++rows % max_rows` (modulo by zero),
`chunks.back()` (empty sequence), the delimiter peek
`last_chunk[last_chunk_size - 1]` when the offset is 0 (index
underflow), and `next_queue % num_queues` (modulo by zero). -/
def countRowChecked (cfg : PConfig) (s : PState) :
    Option (PState × Option (String × List Nat)) :=
  if cfg.max_rows = 0 then none
  else if (s.rows + 1) % cfg.max_rows ≠ 0 then some ({ s with rows := s.rows + 1 }, none)
  else if s.chunks = [] then none
  else if cfg.delim.isSome ∧ s.pos = 0 then none
  else if cfg.num_queues = 0 then none
  else some (countRow cfg s)

/-- One logical row: write its bytes, then signal the row boundary
(`countRow`); `runRows` iterates this over a list of rows and collects
the published messages in order. -/
def runRows (cfg : PConfig) : PState → List (List Nat) → PState × List (String × List Nat)
  | s, [] => (s, [])
  | s, r :: rs =>
    let s1 := writeString cfg s r
    let step := countRow cfg s1
    let rest := runRows cfg step.1 rs
    (rest.1, step.2.toList ++ rest.2)

/-- The assertion of `~WriteBufferToRabbitMQProducer`:
`assert(rows == 0 && chunks.empty())`. -/
def destructorAssert (s : PState) : Prop :=
  s.rows = 0 ∧ s.chunks = []

instance (s : PState) : Decidable (destructorAssert s) := by
  unfold destructorAssert; infer_instance

/-- The logical byte content of the buffer: all chunks except the last in
full, plus the last chunk truncated to the write offset (§3 RowBuffer
invariant: "the last chunk's logical length is given by the current
write offset"). -/
def logicalContent (s : PState) : List Nat :=
  s.chunks.dropLast.flatten ++ (s.chunks.getLastD []).take s.pos

/-- Well-formedness of the buffer state, maintained by the write path:
every chunk has exactly `chunk_size` bytes (`nextImpl` resizes to
`chunk_size`), the write offset never exceeds the capacity, and the
offset is 0 exactly when no chunk exists (a fresh chunk receives a byte
immediately, so a present last chunk has offset at least 1). -/
def WF (cfg : PConfig) (s : PState) : Prop :=
  (∀ c ∈ s.chunks, c.length = cfg.chunk_size) ∧
  s.pos ≤ cfg.chunk_size ∧
  (s.chunks = [] → s.pos = 0) ∧
  (s.chunks ≠ [] → 1 ≤ s.pos)

instance (cfg : PConfig) (s : PState) : Decidable (WF cfg s) := by
  unfold WF; infer_instance

/-- Strip one trailing delimiter byte from a flat payload, if a delimiter
is configured and the last byte equals it. -/
def stripDelim (delim : Option Nat) (payload : List Nat) : List Nat :=
  match delim with
  | some d => if payload.getLast? = some d then payload.dropLast else payload
  | none => payload

/-- Follows the spec's words (§4.1 step 3, §6 wire format): the payload is
the "concatenation of full chunks in order, plus the truncated final
chunk, with the single trailing delimiter byte stripped if configured
and present" — i.e. the delimiter test is on the last logical byte of
the assembled content, not (as in the code) an index peek into the last
chunk. -/
def specPayload (delim : Option Nat) (s : PState) : List Nat :=
  stripDelim delim (logicalContent s)

/-- The parameters of the batching path that are independent of the chunk
allocation size. -/
structure BatchCfg where
  routing_key : String
  num_queues : Nat
  bind_by_id : Bool
  delim : Option Nat
  max_rows : Nat
  deriving Repr, DecidableEq

/-- Forget the chunk size (and the connection-side flags). -/
def PConfig.toBatchCfg (cfg : PConfig) : BatchCfg :=
  { routing_key := cfg.routing_key, num_queues := cfg.num_queues,
    bind_by_id := cfg.bind_by_id, delim := cfg.delim, max_rows := cfg.max_rows }

/-- Chunk-free reference state: the flat logical byte stream plus the
counters. -/
structure RState where
  buf : List Nat
  rows : Nat
  next_queue : Nat
  message_counter : Nat
  deriving Repr, DecidableEq

/-- Reference initial state. -/
def refInit : RState := { buf := [], rows := 0, next_queue := 0, message_counter := 0 }

/-- Follows the spec's words (§8): reference row-boundary step on the flat
byte stream, with no chunking — emit `stripDelim` of the accumulated
bytes on every `max_rows`-th row, with the same routing-key selection as
the code. -/
def refCountRow (cfg : BatchCfg) (r : RState) : RState × Option (String × List Nat) :=
  if (r.rows + 1) % cfg.max_rows = 0 then
    let nq := r.next_queue % cfg.num_queues + 1
    let key := if cfg.bind_by_id then toString nq else cfg.routing_key
    ({ buf := [], rows := 0, next_queue := nq,
       message_counter := (r.message_counter + 1) % Batch },
     some (key, stripDelim cfg.delim r.buf))
  else
    ({ r with rows := r.rows + 1 }, none)

/-- Reference run: append each row's bytes to the flat buffer, then apply
the reference row-boundary step; collect messages in order. -/
def refRun (cfg : BatchCfg) : RState → List (List Nat) → RState × List (String × List Nat)
  | r, [] => (r, [])
  | r, row :: rows =>
    let step := refCountRow cfg { r with buf := r.buf ++ row }
    let rest := refRun cfg step.1 rows
    (rest.1, step.2.toList ++ rest.2)

/-- The loop shape shared by the constructor's connection poll and the
commit wait: `while (!flag && ++cnt_retries != Loop_retries_max)
{ pump; sleep; }` with `cnt_retries` starting at 0, so at most
`Loop_retries_max - 1` bodies run.  `flag n` is the flag's value after
`n` pumps, `pumps` the pumps so far, `remaining` the bodies the retry
ceiling still allows (`Loop_retries_max - 1` at entry); the result is
the total number of pump iterations executed. -/
def boundedWait (flag : Nat → Bool) (pumps : Nat) : Nat → Nat
  | 0 => pumps
  | remaining + 1 => if flag pumps then pumps else boundedWait flag (pumps + 1) remaining

/-- Pump count of the constructor's connection-ready poll
(`!connection->ready() && ++cnt_retries != Loop_retries_max`). -/
def connectionPollPumps (ready : Nat → Bool) : Nat :=
  boundedWait ready 0 (Loop_retries_max - 1)

/-- Pump count of `finilizeProducer`'s commit wait: `answer_received` is
set by the `commitTransaction` success or the error callback; `ack n`
is its value after `n` pump-and-sleep iterations. -/
def commitWaitPumps (ack : Nat → Bool) : Nat :=
  boundedWait ack 0 (Loop_retries_max - 1)

/-- Model of `finilizeProducer`: after a final `checkExchange`, the commit wait
runs only in transactional mode; the result is the number of
pump-and-sleep iterations of that wait (`none` when it is skipped). -/
def finilizeProducerWait (use_transactional_channel : Bool) (ack : Nat → Bool) : Option Nat :=
  if use_transactional_channel then some (commitWaitPumps ack) else none

/-- Exit condition of `checkExchange`'s wait loop after `n` pumps: the
negation of `!exchange_declared && !exchange_error`, the two flags set
by the passive `declareExchange` callbacks. -/
def exchangeLoopDone (declared err : Nat → Bool) (n : Nat) : Bool :=
  declared n || err n

/-- Pump count of `checkExchange`'s wait: the loop has no retry ceiling,
so a pump count exists only under the hypothesis that one of the two
callbacks eventually fires; it is then the least pump count at which
the loop condition fails. -/
def checkExchangePumps (declared err : Nat → Bool)
    (h : ∃ n, exchangeLoopDone declared err n = true) : Nat :=
  Nat.find h

/-- Which flag ended `checkExchange`'s wait.  The `onError` callback logs
the broker-supplied reason, so `errorLogged` is the observably distinct
error path. -/
inductive ExchangeOutcome
  | success
  | errorLogged
  deriving Repr, DecidableEq

/-- The `checkExchange` call observed at its exit point: the pump count and which
flag ended the wait. -/
def checkExchangeModel (declared err : Nat → Bool)
    (h : ∃ n, exchangeLoopDone declared err n = true) : Nat × ExchangeOutcome :=
  let n := checkExchangePumps declared err h
  (n, if declared n then ExchangeOutcome.success else ExchangeOutcome.errorLogged)

/-- Observable steps of the constructor after creating the connection. -/
inductive CtorStep
  | connPoll (pumps : Nat)
  | logConnError
  | openChannel
  | checkExch (pumps : Nat)
  | startTxn
  deriving Repr, DecidableEq

/-- The constructor body after creating the connection: poll the
connection with the bounded retry loop, re-test `connection->ready()`
and log an error if still not ready, open the producer channel, run
`checkExchange()`, and in transactional mode request
`startTransaction()`.  Nothing is thrown: the function always produces
a trace and continues to the end.  `ready n` is `connection->ready()`
after `n` non-blocking pumps; `declared`/`err` drive the exchange
check. -/
def constructorTrace (ready declared err : Nat → Bool) (use_transactional_channel : Bool)
    (h : ∃ n, exchangeLoopDone declared err n = true) : List CtorStep :=
  let n := connectionPollPumps ready
  [CtorStep.connPoll n]
    ++ (if ready n then [] else [CtorStep.logConnError])
    ++ [CtorStep.openChannel, CtorStep.checkExch (checkExchangePumps declared err h)]
    ++ (if use_transactional_channel then [CtorStep.startTxn] else [])

/-! Write-path lemmas -/

theorem writeByte_rows (cfg : PConfig) (s : PState) (b : Nat) :
    (writeByte cfg s b).rows = s.rows := by
  unfold writeByte; split <;> rfl

theorem writeByte_next_queue (cfg : PConfig) (s : PState) (b : Nat) :
    (writeByte cfg s b).next_queue = s.next_queue := by
  unfold writeByte; split <;> rfl

theorem writeByte_message_counter (cfg : PConfig) (s : PState) (b : Nat) :
    (writeByte cfg s b).message_counter = s.message_counter := by
  unfold writeByte; split <;> rfl

theorem writeString_nil (cfg : PConfig) (s : PState) : writeString cfg s [] = s := rfl

theorem writeString_cons (cfg : PConfig) (s : PState) (b : Nat) (row : List Nat) :
    writeString cfg s (b :: row) = writeString cfg (writeByte cfg s b) row := rfl

theorem writeString_rows (cfg : PConfig) (row : List Nat) (s : PState) :
    (writeString cfg s row).rows = s.rows := by
  induction row generalizing s with
  | nil => rfl
  | cons b row ih => rw [writeString_cons, ih, writeByte_rows]

theorem writeString_next_queue (cfg : PConfig) (row : List Nat) (s : PState) :
    (writeString cfg s row).next_queue = s.next_queue := by
  induction row generalizing s with
  | nil => rfl
  | cons b row ih => rw [writeString_cons, ih, writeByte_next_queue]

theorem writeString_message_counter (cfg : PConfig) (row : List Nat) (s : PState) :
    (writeString cfg s row).message_counter = s.message_counter := by
  induction row generalizing s with
  | nil => rfl
  | cons b row ih => rw [writeString_cons, ih, writeByte_message_counter]

theorem take_one_set_zero_replicate (cs b : Nat) (h : 1 ≤ cs) :
    ((List.replicate cs 0).set 0 b).take 1 = [b] := by
  obtain ⟨m, rfl⟩ : ∃ m, cs = m + 1 := ⟨cs - 1, by omega⟩
  simp [List.replicate_succ]

theorem getLastD_of_ne_nil {α : Type} (l : List α) (d : α) (h : l ≠ []) :
    l.getLastD d = l.getLast h := by
  rw [List.getLastD_eq_getLast?, List.getLast?_eq_getLast _ h]; rfl

/-- Writing one byte appends it to the logical content and preserves
well-formedness. -/
theorem writeByte_content (cfg : PConfig) (s : PState) (b : Nat)
    (hcs : 1 ≤ cfg.chunk_size) (h : WF cfg s) :
    logicalContent (writeByte cfg s b) = logicalContent s ++ [b] ∧
      WF cfg (writeByte cfg s b) := by
  obtain ⟨hlen, hpos, hemp, hne⟩ := h
  by_cases hnew : s.chunks = [] ∨ s.pos = cfg.chunk_size
  · rw [show writeByte cfg s b
        = { s with chunks := s.chunks ++ [(List.replicate cfg.chunk_size 0).set 0 b],
                   pos := 1 } by unfold writeByte; rw [if_pos hnew]]
    constructor
    · show (s.chunks ++ _).dropLast.flatten ++ ((s.chunks ++ _).getLastD []).take 1 = _
      rw [List.dropLast_concat]
      simp only [List.getLastD_concat]
      rw [take_one_set_zero_replicate _ _ hcs]
      by_cases hnil : s.chunks = []
      · simp [logicalContent, hnil]
      · have hfull : s.pos = cfg.chunk_size := hnew.resolve_left hnil
        have hlast : s.chunks.getLastD [] = s.chunks.getLast hnil :=
          getLastD_of_ne_nil _ _ hnil
        have hlastlen : (s.chunks.getLast hnil).length = cfg.chunk_size :=
          hlen _ (List.getLast_mem hnil)
        rw [logicalContent, hlast, hfull, ← hlastlen, List.take_length]
        rw [show s.chunks.dropLast.flatten ++ s.chunks.getLast hnil
              = (s.chunks.dropLast ++ [s.chunks.getLast hnil]).flatten by simp]
        rw [List.dropLast_append_getLast hnil]
    · refine ⟨?_, hcs, by simp, fun _ => le_refl 1⟩
      intro c hc
      rcases List.mem_append.mp hc with hc | hc
      · exact hlen c hc
      · rw [List.mem_singleton.mp hc]; simp
  · push_neg at hnew
    obtain ⟨hnil, hfull⟩ := hnew
    have hp1 : 1 ≤ s.pos := hne hnil
    have hlt : s.pos < cfg.chunk_size := lt_of_le_of_ne hpos hfull
    have hlast : s.chunks.getLastD [] = s.chunks.getLast hnil := getLastD_of_ne_nil _ _ hnil
    have hlastlen : (s.chunks.getLast hnil).length = cfg.chunk_size :=
      hlen _ (List.getLast_mem hnil)
    rw [show writeByte cfg s b
        = { s with chunks := s.chunks.dropLast ++ [(s.chunks.getLastD []).set s.pos b],
                   pos := s.pos + 1 } by
      unfold writeByte; rw [if_neg (by push_neg; exact ⟨hnil, hfull⟩)]]
    have hposlen : s.pos < (s.chunks.getLast hnil).length := by rw [hlastlen]; exact hlt
    have htake : ((s.chunks.getLast hnil).set s.pos b).take (s.pos + 1)
        = (s.chunks.getLast hnil).take s.pos ++ [b] := by
      rw [List.set_eq_take_cons_drop b hposlen, List.take_append_eq_append_take,
          List.take_take, List.length_take_of_le (le_of_lt hposlen)]
      have h1 : min (s.pos + 1) s.pos = s.pos := by omega
      have h2 : s.pos + 1 - s.pos = 1 := by omega
      rw [h1, h2]
      rfl
    constructor
    · show (s.chunks.dropLast ++ _).dropLast.flatten
          ++ ((s.chunks.dropLast ++ _).getLastD []).take (s.pos + 1) = _
      rw [List.dropLast_concat]
      simp only [List.getLastD_concat]
      rw [hlast, htake, logicalContent, hlast, List.append_assoc]
    · refine ⟨?_, show s.pos + 1 ≤ cfg.chunk_size by omega, by simp,
        fun _ => show 1 ≤ s.pos + 1 by omega⟩
      intro c hc
      rcases List.mem_append.mp hc with hc | hc
      · exact hlen c ((List.dropLast_sublist _).subset hc)
      · rw [List.mem_singleton.mp hc, hlast, List.length_set]; exact hlastlen

/-- Writing a row appends its bytes to the logical content and preserves
well-formedness. -/
theorem writeString_content (cfg : PConfig) (row : List Nat) (s : PState)
    (hcs : 1 ≤ cfg.chunk_size) (h : WF cfg s) :
    logicalContent (writeString cfg s row) = logicalContent s ++ row ∧
      WF cfg (writeString cfg s row) := by
  induction row generalizing s with
  | nil => exact ⟨by simp [writeString_nil], h⟩
  | cons b row ih =>
    obtain ⟨hb, hwfb⟩ := writeByte_content cfg s b hcs h
    obtain ⟨hs, hwfs⟩ := ih (writeByte cfg s b) hwfb
    rw [writeString_cons]
    exact ⟨by rw [hs, hb]; simp, hwfs⟩

/-! Row-boundary lemmas -/

theorem countRow_no_emit (cfg : PConfig) (s : PState)
    (he : ¬ (s.rows + 1) % cfg.max_rows = 0) :
    countRow cfg s = ({ s with rows := s.rows + 1 }, none) := by
  unfold countRow; rw [if_neg he]

/-- On an emission, the assembled payload equals the spec's assembly rule:
strip one trailing delimiter byte from the logical content.  The code
peeks `last_chunk[offset - 1]`; under well-formedness this is the last
logical byte of the assembled content. -/
theorem countRow_emit (cfg : PConfig) (s : PState) (h : WF cfg s)
    (he : (s.rows + 1) % cfg.max_rows = 0) :
    countRow cfg s =
      ({ chunks := [], pos := 0, rows := 0,
         next_queue := s.next_queue % cfg.num_queues + 1,
         message_counter := (s.message_counter + 1) % Batch },
       some ((if cfg.bind_by_id then toString (s.next_queue % cfg.num_queues + 1)
              else cfg.routing_key),
             stripDelim cfg.delim (logicalContent s))) := by
  obtain ⟨hlen, hpos, hemp, hne⟩ := h
  have hpay : s.chunks.dropLast.flatten ++ (s.chunks.getLastD []).take
      (match cfg.delim with
       | some d =>
         if (s.chunks.getLastD []).get? (s.pos - 1) = some d then s.pos - 1 else s.pos
       | none => s.pos)
      = stripDelim cfg.delim (logicalContent s) := by
    by_cases hnil : s.chunks = []
    · have hp0 : s.pos = 0 := hemp hnil
      cases hd : cfg.delim <;> simp [hnil, hp0, stripDelim, logicalContent]
    · have hlast : s.chunks.getLastD [] = s.chunks.getLast hnil := getLastD_of_ne_nil _ _ hnil
      have hp1 : 1 ≤ s.pos := hne hnil
      have hlastlen : (s.chunks.getLast hnil).length = cfg.chunk_size :=
        hlen _ (List.getLast_mem hnil)
      have hplen : s.pos ≤ (s.chunks.getLast hnil).length := by omega
      have hTlen : ((s.chunks.getLast hnil).take s.pos).length = s.pos :=
        List.length_take_of_le hplen
      have hTne : (s.chunks.getLast hnil).take s.pos ≠ [] :=
        List.ne_nil_of_length_pos (by omega)
      have hglast : (logicalContent s).getLast?
          = (s.chunks.getLast hnil).get? (s.pos - 1) := by
        rw [logicalContent, hlast, List.getLast?_append_of_ne_nil _ hTne,
            List.getLast?_eq_getElem?, ← List.get?_eq_getElem?, hTlen,
            List.get?_eq_getElem?, List.get?_eq_getElem?,
            List.getElem?_take_of_lt (by omega)]
      cases hd : cfg.delim with
      | none => rw [stripDelim, logicalContent, hlast]
      | some d =>
        simp only [stripDelim]
        rw [hglast, hlast]
        by_cases hdeq : (s.chunks.getLast hnil).get? (s.pos - 1) = some d
        · rw [if_pos hdeq, if_pos hdeq, logicalContent, hlast,
              List.dropLast_append_of_ne_nil _ hTne]
          congr 1
          rw [List.dropLast_eq_take, hTlen, List.take_take]
          have : min (s.pos - 1) s.pos = s.pos - 1 := by omega
          rw [this]
        · rw [if_neg hdeq, if_neg hdeq, logicalContent, hlast]
  simp only [countRow, he, if_true]
  rw [hpay]

/-- The state after an emission satisfies the destructor's assertion and
is well-formed. -/
theorem WF_of_reset (cfg : PConfig) (s : PState) (h1 : s.chunks = []) (h2 : s.pos = 0) :
    WF cfg s := by
  refine ⟨?_, by omega, fun _ => h2, fun hc => absurd h1 hc⟩
  intro c hc
  rw [h1] at hc
  exact absurd hc (List.not_mem_nil c)

/-! Simulation against the chunk-free reference -/

/-- Simulation relation between the chunked producer state and the
chunk-free reference state: the buffer is well-formed, its logical
content is the reference's flat buffer, and the counters agree. -/
def Sim (cfg : PConfig) (s : PState) (r : RState) : Prop :=
  WF cfg s ∧ logicalContent s = r.buf ∧ s.rows = r.rows ∧
    s.next_queue = r.next_queue ∧ s.message_counter = r.message_counter

theorem Sim_init (cfg : PConfig) : Sim cfg initState refInit :=
  ⟨WF_of_reset cfg initState rfl rfl, rfl, rfl, rfl, rfl⟩

theorem Sim_writeString (cfg : PConfig) (row : List Nat) (s : PState) (r : RState)
    (hcs : 1 ≤ cfg.chunk_size) (h : Sim cfg s r) :
    Sim cfg (writeString cfg s row) { r with buf := r.buf ++ row } := by
  obtain ⟨hwf, hbuf, hrows, hnq, hmc⟩ := h
  obtain ⟨hc, hw⟩ := writeString_content cfg row s hcs hwf
  exact ⟨hw, by rw [hc, hbuf], by rw [writeString_rows]; exact hrows,
         by rw [writeString_next_queue]; exact hnq,
         by rw [writeString_message_counter]; exact hmc⟩

theorem Sim_countRow (cfg : PConfig) (s : PState) (r : RState) (h : Sim cfg s r) :
    (countRow cfg s).2 = (refCountRow cfg.toBatchCfg r).2 ∧
      Sim cfg (countRow cfg s).1 (refCountRow cfg.toBatchCfg r).1 := by
  obtain ⟨hwf, hbuf, hrows, hnq, hmc⟩ := h
  by_cases he : (s.rows + 1) % cfg.max_rows = 0
  · have he' : (r.rows + 1) % (PConfig.toBatchCfg cfg).max_rows = 0 := by
      rw [← hrows]; exact he
    rw [countRow_emit cfg s hwf he]
    simp only [refCountRow, he', if_true]
    refine ⟨?_, WF_of_reset cfg _ rfl rfl, rfl, rfl, ?_, ?_⟩
    · show some _ = some _
      rw [hbuf, hnq]
      rfl
    · show s.next_queue % cfg.num_queues + 1 = r.next_queue % _ + 1
      rw [hnq]; rfl
    · show (s.message_counter + 1) % Batch = (r.message_counter + 1) % Batch
      rw [hmc]
  · have he' : ¬ (r.rows + 1) % (PConfig.toBatchCfg cfg).max_rows = 0 := by
      rw [← hrows]; exact he
    rw [countRow_no_emit cfg s he]
    simp only [refCountRow, if_neg he']
    exact ⟨by trivial, hwf, hbuf, show s.rows + 1 = r.rows + 1 by rw [hrows], hnq, hmc⟩

theorem runRows_refines (cfg : PConfig) (rows : List (List Nat)) (s : PState) (r : RState)
    (hcs : 1 ≤ cfg.chunk_size) (h : Sim cfg s r) :
    (runRows cfg s rows).2 = (refRun cfg.toBatchCfg r rows).2 ∧
      Sim cfg (runRows cfg s rows).1 (refRun cfg.toBatchCfg r rows).1 := by
  induction rows generalizing s r with
  | nil => exact ⟨rfl, h⟩
  | cons row rows ih =>
    have h1 := Sim_writeString cfg row s r hcs h
    obtain ⟨hmsg, hsim⟩ :=
      Sim_countRow cfg (writeString cfg s row) { r with buf := r.buf ++ row } h1
    obtain ⟨ihmsg, ihsim⟩ := ih _ _ hsim
    constructor
    · simp only [runRows, refRun]
      rw [hmsg, ihmsg]
    · simp only [runRows, refRun]
      exact ihsim

/-! Bounded-wait lemmas -/

theorem boundedWait_le (flag : Nat → Bool) (r p : Nat) :
    boundedWait flag p r ≤ p + r := by
  induction r generalizing p with
  | zero => exact Nat.le_refl p
  | succ r ih =>
    rw [boundedWait]
    split
    · omega
    · have := ih (p + 1); omega

theorem boundedWait_never (flag : Nat → Bool) (r p : Nat) (h : ∀ n, flag n = false) :
    boundedWait flag p r = p + r := by
  induction r generalizing p with
  | zero => rfl
  | succ r ih =>
    rw [boundedWait, h p]
    simp only [Bool.false_eq_true, if_false]
    rw [ih (p + 1)]
    omega

theorem boundedWait_first (flag : Nat → Bool) (r p k : Nat) (hk : flag k = true)
    (hmin : ∀ j < k, flag j = false) (hp : p ≤ k) (hr : k ≤ p + r) :
    boundedWait flag p r = k := by
  induction r generalizing p with
  | zero => rw [boundedWait]; omega
  | succ r ih =>
    rw [boundedWait]
    by_cases hfp : flag p = true
    · rw [if_pos hfp]
      rcases Nat.lt_or_ge p k with hlt | hge
      · rw [hmin p hlt] at hfp; cases hfp
      · omega
    · rw [if_neg (by simp [hfp])]
      have hpk : p ≠ k := fun hpk => hfp (hpk ▸ hk)
      exact ih (p + 1) (by omega) (by omega)

/-! Routing-key lemmas -/

/-- On an emission, `countRow` resets the state, rotates `next_queue`, and
emits some payload with the selected routing key. -/
theorem countRow_emit_key (cfg : PConfig) (s : PState)
    (he : (s.rows + 1) % cfg.max_rows = 0) :
    ∃ p, countRow cfg s =
      ({ chunks := [], pos := 0, rows := 0,
         next_queue := s.next_queue % cfg.num_queues + 1,
         message_counter := (s.message_counter + 1) % Batch },
       some ((if cfg.bind_by_id then toString (s.next_queue % cfg.num_queues + 1)
              else cfg.routing_key), p)) :=
  ⟨s.chunks.dropLast.flatten ++ (s.chunks.getLastD []).take
      (match cfg.delim with
       | some d =>
         if (s.chunks.getLastD []).get? (s.pos - 1) = some d then s.pos - 1 else s.pos
       | none => s.pos),
   by simp only [countRow, he, if_true]⟩

/-- Any emitted message's routing key is the rotated queue id when
`bind_by_id`, else the fixed routing key. -/
theorem countRow_key (cfg : PConfig) (s s2 : PState) (key : String) (payload : List Nat)
    (h : countRow cfg s = (s2, some (key, payload))) :
    key = (if cfg.bind_by_id then toString (s.next_queue % cfg.num_queues + 1)
           else cfg.routing_key) := by
  by_cases he : (s.rows + 1) % cfg.max_rows = 0
  · obtain ⟨p, hp⟩ := countRow_emit_key cfg s he
    rw [hp] at h
    simp only [Prod.mk.injEq, Option.some.injEq] at h
    exact h.2.1.symm
  · rw [countRow_no_emit cfg s he] at h
    exact absurd (congrArg Prod.snd h) (by simp)

/-- Key rotation invariant: if `next_queue` is congruent to the number of
messages emitted so far and bounded by `num_queues`, the keys of a run
are the decimal strings of `1, 2, …, num_queues` in cyclic order. -/
theorem runRows_keys_rotate (cfg : PConfig) (rows : List (List Nat)) (s : PState) (k : Nat)
    (hq : 1 ≤ cfg.num_queues) (hb : cfg.bind_by_id = true)
    (h1 : s.next_queue % cfg.num_queues = k % cfg.num_queues)
    (h2 : s.next_queue ≤ cfg.num_queues) :
    (runRows cfg s rows).2.map Prod.fst =
      (List.range (runRows cfg s rows).2.length).map
        (fun i => toString ((k + i) % cfg.num_queues + 1)) := by
  induction rows generalizing s k with
  | nil => rfl
  | cons row rows ih =>
    simp only [runRows]
    have hnq1 : (writeString cfg s row).next_queue = s.next_queue :=
      writeString_next_queue cfg row s
    by_cases he : ((writeString cfg s row).rows + 1) % cfg.max_rows = 0
    · obtain ⟨p, hcr⟩ := countRow_emit_key cfg (writeString cfg s row) he
      rw [hcr, hb]
      simp only [if_true, Option.toList_some, List.singleton_append, List.map_cons,
        List.length_cons]
      rw [List.range_succ_eq_map, List.map_cons, List.map_map]
      congr 1
      · rw [hnq1, h1]
        simp [Nat.mod_add_mod]
      · rw [ih _ (k + 1) (by rw [hnq1, h1, Nat.mod_add_mod])
          (by rw [hnq1]
              show s.next_queue % cfg.num_queues + 1 ≤ cfg.num_queues
              have := Nat.mod_lt s.next_queue (show 0 < cfg.num_queues by omega)
              omega)]
        congr 1
        funext i
        have : k + Nat.succ i = k + 1 + i := by omega
        simp [Function.comp, this]
    · rw [countRow_no_emit cfg (writeString cfg s row) he]
      simp only [Option.toList_none, List.nil_append]
      exact ih _ k (by rw [show ({ writeString cfg s row with
          rows := (writeString cfg s row).rows + 1 } : PState).next_queue
            = s.next_queue from hnq1, h1]) (hnq1 ▸ h2)

/-- With `bind_by_id` disabled, every emitted message carries the fixed
routing key. -/
theorem runRows_keys_fixed (cfg : PConfig) (rows : List (List Nat)) (s : PState)
    (hb : cfg.bind_by_id = false) :
    ∀ msg ∈ (runRows cfg s rows).2, msg.1 = cfg.routing_key := by
  induction rows generalizing s with
  | nil => intro msg h; exact absurd h (List.not_mem_nil msg)
  | cons row rows ih =>
    intro msg hmsg
    simp only [runRows] at hmsg
    rcases List.mem_append.mp hmsg with hmem | hmem
    · rcases hcr : (countRow cfg (writeString cfg s row)) with ⟨s2, m?⟩
      rw [hcr] at hmem
      cases m? with
      | none => exact absurd hmem (by simp)
      | some m =>
        have hm : msg = m := by simpa using hmem
        rcases m with ⟨key, payload⟩
        rw [hm]
        rw [countRow_key cfg _ s2 key payload hcr, hb]
        simp
    · exact ih _ msg hmem

/-! Demo inputs for the witnesses -/

/-- Demo configuration: delimiter `;` (byte 59), two rows per message,
id-based routing over three queues, chunk size `cs`. -/
def demoCfg (cs : Nat) : PConfig :=
  { routing_key := "fixed_key", num_queues := 3, bind_by_id := true,
    use_transactional_channel := false, delim := some 59, max_rows := 2, chunk_size := cs }

/-- The spec's scenario input: rows "a;", "b;", "c;", "d;" as bytes. -/
def demoRows : List (List Nat) := [[97, 59], [98, 59], [99, 59], [100, 59]]

/-- The buffer state just before the second row boundary of the scenario
with chunk size 3: chunks "a;b" and ";··", offset 1, one row counted. -/
def demoState : PState :=
  { chunks := [[97, 59, 98], [59, 0, 0]], pos := 1, rows := 1,
    next_queue := 0, message_counter := 0 }

/-! Claims -/

/-- C1: every payload emitted by `countRow` equals the spec's assembly
rule — all chunks but the last in full, the last truncated to the write
offset, one trailing delimiter stripped if configured and present
(`specPayload`); and the scenario `max_rows = 2`, rows "a;" "b;" "c;"
"d;" with delimiter `;` yields exactly the two payloads "a;b" and
"c;d". -/
theorem claim_C1 (cfg : PConfig) (s s' : PState) (key : String) (payload : List Nat)
    (hwf : WF cfg s) (hemit : countRow cfg s = (s', some (key, payload))) :
    payload = specPayload cfg.delim s ∧
      (runRows (demoCfg 3) initState demoRows).2.map Prod.snd
        = [[97, 59, 98], [99, 59, 100]] := by
  constructor
  · by_cases he : (s.rows + 1) % cfg.max_rows = 0
    · rw [countRow_emit cfg s hwf he] at hemit
      simp only [Prod.mk.injEq, Option.some.injEq] at hemit
      show payload = stripDelim cfg.delim (logicalContent s)
      exact hemit.2.2.symm
    · rw [countRow_no_emit cfg s he] at hemit
      exact absurd (congrArg Prod.snd hemit) (by simp)
  · decide

/-- Witness for C1 at the scenario's own pre-emission state. -/
theorem claim_C1_witness :
    WF (demoCfg 3) demoState ∧
      ([97, 59, 98] : List Nat) = specPayload (demoCfg 3).delim demoState :=
  ⟨by decide,
   (claim_C1 (demoCfg 3) demoState
      { chunks := [], pos := 0, rows := 0, next_queue := 1, message_counter := 1 }
      "1" [97, 59, 98] (by decide) (by decide)).1⟩

/-- C2: `countRow` emits iff the incremented row counter is a nonzero
multiple of `max_rows`; when it is not, nothing is published and the
chunk sequence is unchanged. -/
theorem claim_C2 (cfg : PConfig) (s : PState) (hm : 1 ≤ cfg.max_rows) :
    ((countRow cfg s).2.isSome = true ↔
      ∃ k, k ≠ 0 ∧ s.rows + 1 = k * cfg.max_rows) ∧
    ((s.rows + 1) % cfg.max_rows ≠ 0 →
      (countRow cfg s).2 = none ∧ (countRow cfg s).1.chunks = s.chunks) := by
  refine ⟨⟨?_, ?_⟩, ?_⟩
  · intro hsome
    by_cases he : (s.rows + 1) % cfg.max_rows = 0
    · obtain ⟨q, hq⟩ := Nat.dvd_of_mod_eq_zero he
      refine ⟨q, ?_, by rw [hq, Nat.mul_comm]⟩
      rintro rfl
      rw [Nat.mul_zero] at hq
      exact absurd hq (by omega)
    · rw [countRow_no_emit cfg s he] at hsome
      exact absurd hsome (by simp)
  · rintro ⟨k, hk0, hk⟩
    have he : (s.rows + 1) % cfg.max_rows = 0 := by rw [hk]; exact Nat.mul_mod_left k _
    obtain ⟨p, hp⟩ := countRow_emit_key cfg s he
    rw [hp]
    rfl
  · intro he
    rw [countRow_no_emit cfg s he]
    exact ⟨rfl, rfl⟩

/-- Witness for C2 at a concrete state (one row counted, `max_rows = 2`:
the second boundary emits). -/
theorem claim_C2_witness :
    ((countRow (demoCfg 3) demoState).2.isSome = true ↔
      ∃ k, k ≠ 0 ∧ demoState.rows + 1 = k * (demoCfg 3).max_rows) ∧
    ((demoState.rows + 1) % (demoCfg 3).max_rows ≠ 0 →
      (countRow (demoCfg 3) demoState).2 = none ∧
        (countRow (demoCfg 3) demoState).1.chunks = demoState.chunks) :=
  claim_C2 (demoCfg 3) demoState (by decide)

/-- C3: after every emission performed by `countRow`, the row counter is 0
and the chunk sequence is empty — the invariant asserted at
destruction. -/
theorem claim_C3 (cfg : PConfig) (s s' : PState) (m : String × List Nat)
    (h : countRow cfg s = (s', some m)) : destructorAssert s' := by
  by_cases he : (s.rows + 1) % cfg.max_rows = 0
  · obtain ⟨p, hp⟩ := countRow_emit_key cfg s he
    rw [hp] at h
    simp only [Prod.mk.injEq] at h
    rw [← h.1]
    exact ⟨rfl, rfl⟩
  · rw [countRow_no_emit cfg s he] at h
    exact absurd (congrArg Prod.snd h) (by simp)

/-- Witness for C3 at the scenario's emitting state. -/
theorem claim_C3_witness :
    destructorAssert
      { chunks := [], pos := 0, rows := 0, next_queue := 1, message_counter := 1 } :=
  claim_C3 (demoCfg 3) demoState
    { chunks := [], pos := 0, rows := 0, next_queue := 1, message_counter := 1 }
    ("1", [97, 59, 98]) (by decide)

/-- C4: the emitted message sequence is independent of the chunk size —
two configurations equal except for `chunk_size` (both positive) produce
identical message lists on every logical input. -/
theorem claim_C4 (rows : List (List Nat)) (cfg₁ cfg₂ : PConfig)
    (hb : cfg₁.toBatchCfg = cfg₂.toBatchCfg)
    (h1 : 1 ≤ cfg₁.chunk_size) (h2 : 1 ≤ cfg₂.chunk_size) :
    (runRows cfg₁ initState rows).2 = (runRows cfg₂ initState rows).2 := by
  have e1 := (runRows_refines cfg₁ rows initState refInit h1 (Sim_init cfg₁)).1
  have e2 := (runRows_refines cfg₂ rows initState refInit h2 (Sim_init cfg₂)).1
  rw [e1, e2, hb]

/-- Witness for C4: chunk sizes 1, 7 and 4096 agree on the scenario
input. -/
theorem claim_C4_witness :
    (demoCfg 1).toBatchCfg = (demoCfg 7).toBatchCfg ∧
    (runRows (demoCfg 1) initState demoRows).2 = (runRows (demoCfg 7) initState demoRows).2 ∧
    (runRows (demoCfg 7) initState demoRows).2 = (runRows (demoCfg 4096) initState demoRows).2 :=
  ⟨rfl, claim_C4 demoRows (demoCfg 1) (demoCfg 7) rfl (by decide) (by decide),
        claim_C4 demoRows (demoCfg 7) (demoCfg 4096) rfl (by decide) (by decide)⟩

/-- C5: with id-based routing the `i`-th emitted message (0-indexed) uses
routing key `toString (i % num_queues + 1)` — the exact cyclic rotation
1, 2, …, num_queues, 1, … — and with it disabled every message uses the
fixed configured routing key. -/
theorem claim_C5 (cfg : PConfig) (rows : List (List Nat)) (hq : 1 ≤ cfg.num_queues) :
    (cfg.bind_by_id = true →
      (runRows cfg initState rows).2.map Prod.fst =
        (List.range (runRows cfg initState rows).2.length).map
          (fun i => toString (i % cfg.num_queues + 1))) ∧
    (cfg.bind_by_id = false →
      ∀ msg ∈ (runRows cfg initState rows).2, msg.1 = cfg.routing_key) := by
  constructor
  · intro hb
    have h := runRows_keys_rotate cfg rows initState 0 hq hb rfl (Nat.zero_le _)
    simpa using h
  · intro hb
    exact runRows_keys_fixed cfg rows initState hb

/-- Witness for C5: the scenario emits keys "1", "2". -/
theorem claim_C5_witness :
    (runRows (demoCfg 3) initState demoRows).2.map Prod.fst =
      (List.range (runRows (demoCfg 3) initState demoRows).2.length).map
        (fun i => toString (i % (demoCfg 3).num_queues + 1)) :=
  (claim_C5 (demoCfg 3) demoRows (by decide)).1 rfl

/-- C9: under the preconditions `max_rows ≥ 1`, `num_queues ≥ 1`, a
nonempty chunk sequence, and (when a delimiter is configured) a write
offset of at least 1, every C++ operation in `countRow`'s emission step
is defined: the error branch of the checked embedding is
unreachable. -/
theorem claim_C9 (cfg : PConfig) (s : PState) (hm : 1 ≤ cfg.max_rows)
    (hq : 1 ≤ cfg.num_queues) (hc : s.chunks ≠ [])
    (hd : cfg.delim.isSome → 1 ≤ s.pos) :
    (countRowChecked cfg s).isSome = true := by
  unfold countRowChecked
  by_cases he : (s.rows + 1) % cfg.max_rows = 0
  · rw [if_neg (show ¬ cfg.max_rows = 0 by omega),
        if_neg (show ¬ ((s.rows + 1) % cfg.max_rows ≠ 0) from fun hne => hne he),
        if_neg hc,
        if_neg (show ¬ (cfg.delim.isSome = true ∧ s.pos = 0) from fun hx => by
          have := hd hx.1; omega),
        if_neg (show ¬ cfg.num_queues = 0 by omega)]
    rfl
  · rw [if_neg (show ¬ cfg.max_rows = 0 by omega), if_pos he]
    rfl

/-- Witness for C9 at the scenario's emitting state. -/
theorem claim_C9_witness :
    (countRowChecked (demoCfg 3) demoState).isSome = true :=
  claim_C9 (demoCfg 3) demoState (by decide) (by decide) (by decide) (by decide)

/-- C6: with transactional mode on, `finilizeProducer`'s commit wait runs
at most `Loop_retries_max - 1` pump-and-sleep iterations even if the
commit is never acknowledged (it does not block indefinitely); if the
success or error callback fires, the wait exits at that first point. -/
theorem claim_C6 (ack : Nat → Bool) :
    (∃ n, n ≤ Loop_retries_max - 1 ∧ finilizeProducerWait true ack = some n) ∧
    ((∀ n, ack n = false) →
      finilizeProducerWait true ack = some (Loop_retries_max - 1)) ∧
    (∀ k, ack k = true → (∀ j < k, ack j = false) → k ≤ Loop_retries_max - 1 →
      finilizeProducerWait true ack = some k) := by
  refine ⟨⟨commitWaitPumps ack, ?_, rfl⟩, ?_, ?_⟩
  · have := boundedWait_le ack (Loop_retries_max - 1) 0
    show boundedWait ack 0 (Loop_retries_max - 1) ≤ Loop_retries_max - 1
    omega
  · intro h0
    show some (boundedWait ack 0 (Loop_retries_max - 1)) = _
    rw [boundedWait_never ack (Loop_retries_max - 1) 0 h0, Nat.zero_add]
  · intro k hk hmin hle
    show some (boundedWait ack 0 (Loop_retries_max - 1)) = some k
    rw [boundedWait_first ack (Loop_retries_max - 1) 0 k hk hmin (Nat.zero_le k) (by omega)]

/-- Witness for C6: a commit acknowledged after 5 pumps exits at 5. -/
theorem claim_C6_witness :
    finilizeProducerWait true (fun n => decide (n = 5)) = some 5 :=
  (claim_C6 (fun n => decide (n = 5))).2.2 5 (by decide) (by decide) (by decide)

/-- C7: `checkExchange`'s wait exits exactly when a callback has fired —
the error flag is a valid exit condition — and when the exchange is
never declared (success never fires) but the error callback fires, the
wait terminates on the error flag with the logged-error outcome,
distinct from the success outcome. -/
theorem claim_C7 (declared err : Nat → Bool)
    (h : ∃ n, exchangeLoopDone declared err n = true) :
    exchangeLoopDone declared err (checkExchangeModel declared err h).1 = true ∧
    ((∀ n, declared n = false) →
      (checkExchangeModel declared err h).2 = ExchangeOutcome.errorLogged ∧
      err (checkExchangeModel declared err h).1 = true ∧
      (checkExchangeModel declared err h).2 ≠ ExchangeOutcome.success) := by
  have hspec : exchangeLoopDone declared err (Nat.find h) = true := Nat.find_spec h
  constructor
  · exact hspec
  · intro hd
    have herr : err (Nat.find h) = true := by
      have h2 := hspec
      rw [exchangeLoopDone, hd (Nat.find h)] at h2
      simpa using h2
    refine ⟨?_, herr, ?_⟩
    · show (if declared (Nat.find h) then ExchangeOutcome.success
            else ExchangeOutcome.errorLogged) = _
      rw [hd (Nat.find h)]
      simp
    · show (if declared (Nat.find h) then ExchangeOutcome.success
            else ExchangeOutcome.errorLogged) ≠ _
      rw [hd (Nat.find h)]
      simp

/-- Witness for C7: exchange missing (success never fires), error fires
after 2 pumps. -/
theorem claim_C7_witness :
    exchangeLoopDone (fun _ => false) (fun n => decide (n = 2))
      (checkExchangeModel (fun _ => false) (fun n => decide (n = 2))
        ⟨2, by decide⟩).1 = true ∧
    ((∀ n, (fun _ : Nat => false) n = false) →
      (checkExchangeModel (fun _ => false) (fun n => decide (n = 2))
        ⟨2, by decide⟩).2 = ExchangeOutcome.errorLogged ∧
      (fun n => decide (n = 2))
        ((checkExchangeModel (fun _ => false) (fun n => decide (n = 2))
          ⟨2, by decide⟩).1) = true ∧
      (checkExchangeModel (fun _ => false) (fun n => decide (n = 2))
        ⟨2, by decide⟩).2 ≠ ExchangeOutcome.success) :=
  claim_C7 (fun _ => false) (fun n => decide (n = 2)) ⟨2, by decide⟩

/-- C8: the connection poll runs at most `Loop_retries_max - 1` pump-sleep
iterations (exactly that many when the connection never becomes ready);
if the connection is still not ready afterwards an error is logged; and
construction continues non-fatally either way — the channel is opened
and, in transactional mode, the transaction start is still requested
(the trace function is total: no error is raised to the caller). -/
theorem claim_C8 (ready declared err : Nat → Bool) (txn : Bool)
    (h : ∃ n, exchangeLoopDone declared err n = true)
    (t : List CtorStep) (ht : t = constructorTrace ready declared err txn h) :
    connectionPollPumps ready ≤ Loop_retries_max - 1 ∧
    ((∀ n, ready n = false) → connectionPollPumps ready = Loop_retries_max - 1) ∧
    (ready (connectionPollPumps ready) = false → CtorStep.logConnError ∈ t) ∧
    CtorStep.openChannel ∈ t ∧
    (txn = true → CtorStep.startTxn ∈ t) ∧
    (txn = false → CtorStep.startTxn ∉ t) := by
  subst ht
  refine ⟨?_, ?_, ?_, ?_, ?_, ?_⟩
  · have := boundedWait_le ready (Loop_retries_max - 1) 0
    show boundedWait ready 0 (Loop_retries_max - 1) ≤ Loop_retries_max - 1
    omega
  · intro h0
    show boundedWait ready 0 (Loop_retries_max - 1) = Loop_retries_max - 1
    rw [boundedWait_never ready (Loop_retries_max - 1) 0 h0, Nat.zero_add]
  · intro hr
    simp [constructorTrace, hr]
  · by_cases hr : ready (connectionPollPumps ready) = true <;>
      simp [constructorTrace, hr]
  · intro htxn
    by_cases hr : ready (connectionPollPumps ready) = true <;>
      simp [constructorTrace, hr, htxn]
  · intro htxn
    by_cases hr : ready (connectionPollPumps ready) = true <;>
      simp [constructorTrace, hr, htxn]

/-- Witness for C8: connection never ready, transactional mode on. -/
theorem claim_C8_witness :
    connectionPollPumps (fun _ => false) ≤ Loop_retries_max - 1 ∧
    ((∀ n, (fun _ : Nat => false) n = false) →
      connectionPollPumps (fun _ => false) = Loop_retries_max - 1) ∧
    ((fun _ : Nat => false) (connectionPollPumps (fun _ => false)) = false →
      CtorStep.logConnError ∈
        constructorTrace (fun _ => false) (fun _ => true) (fun _ => false) true
          ⟨0, by decide⟩) ∧
    CtorStep.openChannel ∈
      constructorTrace (fun _ => false) (fun _ => true) (fun _ => false) true
        ⟨0, by decide⟩ ∧
    (true = true → CtorStep.startTxn ∈
      constructorTrace (fun _ => false) (fun _ => true) (fun _ => false) true
        ⟨0, by decide⟩) ∧
    (true = false → CtorStep.startTxn ∉
      constructorTrace (fun _ => false) (fun _ => true) (fun _ => false) true
        ⟨0, by decide⟩) :=
  claim_C8 (fun _ => false) (fun _ => true) (fun _ => false) true ⟨0, by decide⟩ _ rfl

/-- C10: in the constructor, `checkExchange` runs after the channel is
opened and before any transaction start (as a sublist of the trace, in
order); unlike the connection poll and the commit wait — whose pump
counts never exceed `Loop_retries_max - 1` for any oracle — the
exchange wait admits runs exceeding every bound `B`, and it has a pump
count at all only under the hypothesis that a callback eventually
fires. -/
theorem claim_C10 (ready declared err : Nat → Bool) (txn : Bool)
    (h : ∃ n, exchangeLoopDone declared err n = true)
    (t : List CtorStep) (ht : t = constructorTrace ready declared err txn h) :
    ([CtorStep.openChannel, CtorStep.checkExch (checkExchangePumps declared err h)].Sublist t) ∧
    (txn = true →
      ([CtorStep.openChannel, CtorStep.checkExch (checkExchangePumps declared err h),
        CtorStep.startTxn].Sublist t)) ∧
    (∀ B, ∃ declared2 err2, ∃ (h2 : ∃ n, exchangeLoopDone declared2 err2 n = true),
      B < checkExchangePumps declared2 err2 h2) ∧
    (∀ flag : Nat → Bool, connectionPollPumps flag ≤ Loop_retries_max - 1 ∧
      commitWaitPumps flag ≤ Loop_retries_max - 1) := by
  subst ht
  have hsuf : ([CtorStep.openChannel,
        CtorStep.checkExch (checkExchangePumps declared err h)]
      ++ (if txn = true then [CtorStep.startTxn] else [])) <:+
      constructorTrace ready declared err txn h := by
    show _ <:+ (([CtorStep.connPoll (connectionPollPumps ready)]
      ++ (if ready (connectionPollPumps ready) then [] else [CtorStep.logConnError]))
      ++ [CtorStep.openChannel, CtorStep.checkExch (checkExchangePumps declared err h)])
      ++ (if txn = true then [CtorStep.startTxn] else [])
    rw [List.append_assoc]
    exact List.suffix_append _ _
  refine ⟨?_, ?_, ?_, ?_⟩
  · exact (List.sublist_append_left _ _).trans hsuf.sublist
  · intro htxn
    subst htxn
    exact hsuf.sublist
  · intro B
    refine ⟨fun _ => false, fun n => decide (n = B + 1),
      ⟨B + 1, by simp [exchangeLoopDone]⟩, ?_⟩
    show B < Nat.find _
    refine (Nat.lt_find_iff _ _).mpr ?_
    intro k hk hdone
    rw [exchangeLoopDone] at hdone
    simp at hdone
    omega
  · intro flag
    constructor
    · have := boundedWait_le flag (Loop_retries_max - 1) 0
      show boundedWait flag 0 (Loop_retries_max - 1) ≤ Loop_retries_max - 1
      omega
    · have := boundedWait_le flag (Loop_retries_max - 1) 0
      show boundedWait flag 0 (Loop_retries_max - 1) ≤ Loop_retries_max - 1
      omega

/-- Witness for C10: the trace with the connection ready at once, the
exchange declared after one pump, transactional mode on. -/
theorem claim_C10_witness :
    ([CtorStep.openChannel,
      CtorStep.checkExch (checkExchangePumps (fun _ => true) (fun _ => false)
        ⟨0, by decide⟩)].Sublist
      (constructorTrace (fun _ => true) (fun _ => true) (fun _ => false) true
        ⟨0, by decide⟩)) ∧
    (true = true →
      ([CtorStep.openChannel,
        CtorStep.checkExch (checkExchangePumps (fun _ => true) (fun _ => false)
          ⟨0, by decide⟩),
        CtorStep.startTxn].Sublist
        (constructorTrace (fun _ => true) (fun _ => true) (fun _ => false) true
          ⟨0, by decide⟩))) ∧
    (∀ B, ∃ declared2 err2, ∃ (h2 : ∃ n, exchangeLoopDone declared2 err2 n = true),
      B < checkExchangePumps declared2 err2 h2) ∧
    (∀ flag : Nat → Bool, connectionPollPumps flag ≤ Loop_retries_max - 1 ∧
      commitWaitPumps flag ≤ Loop_retries_max - 1) :=
  claim_C10 (fun _ => true) (fun _ => true) (fun _ => false) true ⟨0, by decide⟩ _ rfl

end RabbitMQProducer
